import Mathlib

/-!
# FindPi.c — Monte Carlo estimate of pi

A shallow embedding of `src/FindPi.c` and proofs about it.

Modelling conventions:

* `int` is a 32-bit two's-complement integer.  Values are carried as `Int`
  and the two increments of the loop (`i++`, `count++`) are reduced with
  `wrapInt`, so overflow would be visible if it could happen.
* `double` is IEEE 754 binary64 with round-to-nearest, ties-to-even, every
  operation rounded once (`FLT_EVAL_METHOD == 0`).  Finite values are carried
  as rationals; `roundNearest` is the rounding function.  The sign of zero is
  not tracked: the program only ever converts non-negative integers and
  divides, multiplies, adds and compares them.
* `srand`, `rand` and `RAND_MAX` come from `<stdlib.h>` and the `%g`
  conversion from `<stdio.h>`; they are parameters of the model.
-/

namespace FindPi

/-! ## 32-bit `int` -/

/-- Reduce an integer to the range of a 32-bit two's-complement `int`. -/
def wrapInt (v : Int) : Int := (v + 2 ^ 31) % 2 ^ 32 - 2 ^ 31

/-! ## binary64 arithmetic -/

/-- The rational `2 ^ e`, computed with natural-number powers. -/
def pow2 (e : Int) : ℚ :=
  if 0 ≤ e then ((2 ^ e.toNat : Nat) : ℚ) else 1 / ((2 ^ (-e).toNat : Nat) : ℚ)

/-- Floor of the base-2 logarithm of a natural number, by repeated halving
(at most `fuel` halvings). -/
def log2Aux : Nat → Nat → Nat
  | 0, _ => 0
  | fuel + 1, n => if n < 2 then 0 else log2Aux fuel (n / 2) + 1

/-- Floor of the base-2 logarithm of a positive natural number. -/
def natLog2 (n : Nat) : Nat := log2Aux n n

/-- Floor of the base-2 logarithm of `|q|` for `q ≠ 0`. -/
def ilog2 (q : ℚ) : Int :=
  let k : Int := (natLog2 q.num.natAbs : Int) - (natLog2 q.den : Int)
  if pow2 k ≤ |q| then k else k - 1

/-- Exponent of the unit in the last place of the binary64 binade of `q`:
53 significant bits, smallest normal exponent `-1022` (below it the spacing
stays `2 ^ (-1074)`, the subnormal range). -/
def ulpExp (q : ℚ) : Int := max (ilog2 q) (-1022) - 52

/-- Round a rational to the nearest integer, ties to the even one. -/
def roundHalfEven (t : ℚ) : Int :=
  let f := ⌊t⌋
  if t - f < 1 / 2 then f
  else if 1 / 2 < t - f then f + 1
  else if f % 2 = 0 then f else f + 1

/-- Values of the C type `double`. -/
inductive CDouble where
  | fin (q : ℚ)
  | inf (neg : Bool)
  | nan
  deriving DecidableEq

/-- Round a rational to binary64: nearest representable value, ties to even,
overflow to an infinity. -/
def roundNearest (q : ℚ) : CDouble :=
  let e := ulpExp q
  let v : ℚ := (roundHalfEven (q / pow2 e) : ℚ) * pow2 e
  if pow2 1024 ≤ |v| then CDouble.inf (decide (q < 0)) else CDouble.fin v

namespace CDouble

/-- Conversion `(double)n` of an integer. -/
def ofInt (n : Int) : CDouble := roundNearest (n : ℚ)

/-- The operator `a + b` on doubles. -/
def add : CDouble → CDouble → CDouble
  | fin a, fin b => roundNearest (a + b)
  | fin _, inf s => inf s
  | inf s, fin _ => inf s
  | inf s, inf t => if s = t then inf s else nan
  | _, _ => nan

/-- The operator `a * b` on doubles. -/
def mul : CDouble → CDouble → CDouble
  | fin a, fin b => roundNearest (a * b)
  | fin a, inf s => if a = 0 then nan else inf (xor (decide (a < 0)) s)
  | inf s, fin b => if b = 0 then nan else inf (xor s (decide (b < 0)))
  | inf s, inf t => inf (xor s t)
  | _, _ => nan

/-- The operator `a / b` on doubles.  A zero divisor is `+0.0` here. -/
def div : CDouble → CDouble → CDouble
  | fin a, fin b =>
      if b = 0 then (if a = 0 then nan else inf (decide (a < 0)))
      else roundNearest (a / b)
  | fin _, inf _ => fin 0
  | inf s, fin b => inf (xor s (decide (b < 0)))
  | _, _ => nan

/-- The comparison `a <= b` on doubles (false when an operand is a NaN). -/
def le : CDouble → CDouble → Bool
  | fin a, fin b => decide (a ≤ b)
  | fin _, inf s => !s
  | inf s, fin _ => s
  | inf s, inf t => s || !t
  | _, _ => false

end CDouble

/-! ## The C library parts the program uses -/

/-- The pseudo-random generator of `<stdlib.h>`: its hidden state, the
constant `RAND_MAX`, `srand(seed)` which resets the state, and `rand()`
which returns the next output together with the new state.  The outputs of
`rand()` are non-negative `int`s and are carried as naturals. -/
structure RandGen where
  State : Type
  RAND_MAX : Nat
  srand : Nat → State
  rand : State → Nat × State

/-! ## The program -/

/-- The constant `SEED` (`#define SEED 35791246`). -/
def SEED : Nat := 35791246

/-- The variables of `main` that live across loop iterations, with the
generator state. -/
structure Locals (G : RandGen) where
  i : Int
  count : Int
  gen : G.State

/-- The state at the first test of the loop condition: after `srand(seed)`,
`count=0` and `i=0`. -/
def initLocals (G : RandGen) (seed : Nat) : Locals G :=
  { i := 0, count := 0, gen := G.srand seed }

/-- One pass through the loop: the body (lines 21-24) followed by `i++`. -/
def loopBody (G : RandGen) (s : Locals G) : Locals G :=
  let d1 := G.rand s.gen
  let x := CDouble.div (CDouble.ofInt d1.1) (CDouble.ofInt G.RAND_MAX)
  let d2 := G.rand d1.2
  let y := CDouble.div (CDouble.ofInt d2.1) (CDouble.ofInt G.RAND_MAX)
  let z := CDouble.add (CDouble.mul x x) (CDouble.mul y y)
  let count := if CDouble.le z (CDouble.ofInt 1) then wrapInt (s.count + 1) else s.count
  { i := wrapInt (s.i + 1), count := count, gen := d2.2 }

/-- The loop `for (...; i<niter; i++)` run for at most `fuel` passes; `none`
when the fuel runs out before the condition fails. -/
def loop (G : RandGen) (niter : Int) : Nat → Locals G → Option (Locals G)
  | 0, s => if s.i < niter then none else some s
  | fuel + 1, s => if s.i < niter then loop G niter fuel (loopBody G s) else some s

/-- What a run leaves behind: the final `count`, the value of `pi`, and the
text written to standard output. -/
structure Result where
  count : Int
  pi : CDouble
  out : String

/-- The body of `main` for an iteration count `niter` and a seed `seed`;
`fmtG` is the `%g` conversion of `printf`. -/
def mainWith (G : RandGen) (fmtG : CDouble → String) (niter : Int) (seed : Nat)
    (fuel : Nat) : Option Result :=
  match loop G niter fuel (initLocals G seed) with
  | none => none
  | some s =>
    let pi := CDouble.mul (CDouble.div (CDouble.ofInt s.count) (CDouble.ofInt niter))
      (CDouble.ofInt 4)
    some { count := s.count, pi := pi, out := "estimate of pi is " ++ fmtG pi ++ " \n" }

/-- The program: `niter=10000000`, seed `SEED`, and fuel for the 10000000
passes of the loop; the arguments are not used. -/
def main (G : RandGen) (fmtG : CDouble → String) (_argc : Int) (_argv : List String) :
    Option Result :=
  mainWith G fmtG 10000000 SEED 10000000

/-- A generator that replays a given stream of outputs; its state is the
position in the stream. -/
def streamGen (M : Nat) (r : Nat → Nat) : RandGen :=
  { State := Nat, RAND_MAX := M, srand := fun _ => 0, rand := fun k => (r k, k + 1) }

/-- A small linear congruential generator with 15-bit outputs, used for the
concrete runs below. -/
def lcg : RandGen :=
  { State := Nat, RAND_MAX := 32767, srand := fun seed => seed % 2 ^ 32,
    rand := fun s =>
      let t := (s * 1103515245 + 12345) % 2 ^ 32
      (t / 65536 % 32768, t) }

/-! ## Specification-side definitions -/

/-- The finite binary64 values that are not negative: `m * 2 ^ j` with a 53-bit
`m` and `j` at least the smallest exponent. -/
def Representable (v : ℚ) : Prop :=
  ∃ (m : Nat) (j : Int), m < 2 ^ 53 ∧ -1074 ≤ j ∧ v = (m : ℚ) * (2 : ℚ) ^ j

/-- The state of the generator after one more call of `rand()`. -/
def advance (G : RandGen) (g : G.State) : G.State := (G.rand g).2

/-- The output of call number `k` (from 0) of `rand()` when the generator
starts in state `g`. -/
def rawDraw (G : RandGen) (g : G.State) (k : Nat) : Nat := (G.rand ((advance G)^[k] g)).1

/-- The value of the expression `(double)rand()/RAND_MAX` when `rand()`
returns `r`. -/
def scaled (M r : Nat) : CDouble := CDouble.div (CDouble.ofInt r) (CDouble.ofInt M)

/-- The inclusion test of lines 23-24 for a sample: `z = x*x+y*y` and `z<=1`. -/
def inCircle (x y : CDouble) : Bool :=
  CDouble.le (CDouble.add (CDouble.mul x x) (CDouble.mul y y)) (CDouble.ofInt 1)

/-- Whether sample number `i` of the output stream `r` passes the inclusion
test: `x` comes from output `2 * i` and `y` from output `2 * i + 1`. -/
def passes (M : Nat) (r : Nat → Nat) (i : Nat) : Bool :=
  inCircle (scaled M (r (2 * i))) (scaled M (r (2 * i + 1)))

/-- The number of samples `i < N` of the output stream `r` that pass the
inclusion test. -/
def insideCount (M : Nat) (r : Nat → Nat) (N : Nat) : Nat :=
  ((List.range N).filter (passes M r)).length

/-- The loop state after `k` passes through the loop. -/
def stateAfter (G : RandGen) (seed : Nat) (k : Nat) : Locals G :=
  (loopBody G)^[k] (initLocals G seed)

/-- The states in which the loop condition can be tested during a run. -/
inductive Reachable (G : RandGen) (niter : Int) (seed : Nat) : Locals G → Prop where
  | init : Reachable G niter seed (initLocals G seed)
  | step (s : Locals G) : Reachable G niter seed s → s.i < niter →
      Reachable G niter seed (loopBody G s)

/-- The generator `G` instrumented to record every output it hands out, in
call order. -/
def recording (G : RandGen) : RandGen :=
  { State := G.State × List Nat, RAND_MAX := G.RAND_MAX,
    srand := fun seed => (G.srand seed, []),
    rand := fun s => ((G.rand s.1).1, ((G.rand s.1).2, s.2 ++ [(G.rand s.1).1])) }

/-! ## Facts about binary64 rounding -/

theorem pow2_eq_zpow (e : Int) : pow2 e = (2 : ℚ) ^ e := by
  unfold pow2
  split_ifs with h
  · obtain ⟨n, rfl⟩ := Int.eq_ofNat_of_zero_le h
    simp
  · push_neg at h
    obtain ⟨n, hn⟩ := Int.eq_ofNat_of_zero_le (show 0 ≤ -e by omega)
    have he : e = -(n : Int) := by omega
    subst he
    simp

theorem pow2_pos (e : Int) : 0 < pow2 e := by
  rw [pow2_eq_zpow]; positivity

theorem log2Aux_spec : ∀ (fuel n : Nat), n ≠ 0 → n ≤ fuel →
    2 ^ log2Aux fuel n ≤ n ∧ n < 2 ^ (log2Aux fuel n + 1)
  | 0, n, h0, hle => by omega
  | fuel + 1, n, h0, hle => by
    unfold log2Aux
    split_ifs with h2
    · constructor <;> simp <;> omega
    · have ih := log2Aux_spec fuel (n / 2) (by omega) (by omega)
      obtain ⟨ih1, ih2⟩ := ih
      constructor
      · rw [pow_succ]; omega
      · rw [pow_succ]; omega

theorem natLog2_spec (n : Nat) (h : n ≠ 0) :
    2 ^ natLog2 n ≤ n ∧ n < 2 ^ (natLog2 n + 1) :=
  log2Aux_spec n n h le_rfl

theorem abs_eq_natAbs_div_den (q : ℚ) : |q| = (q.num.natAbs : ℚ) / (q.den : ℚ) := by
  conv_lhs => rw [← Rat.num_div_den q]
  rw [abs_div, Nat.abs_cast, Nat.cast_natAbs, Int.cast_abs]

theorem ilog2_spec (q : ℚ) (hq : q ≠ 0) :
    (2 : ℚ) ^ ilog2 q ≤ |q| ∧ |q| < (2 : ℚ) ^ (ilog2 q + 1) := by
  have hn : q.num.natAbs ≠ 0 := by simpa using hq
  have hd : q.den ≠ 0 := q.den_nz
  obtain ⟨a1, a2⟩ := natLog2_spec _ hn
  obtain ⟨b1, b2⟩ := natLog2_spec _ hd
  have habs := abs_eq_natAbs_div_den q
  have hdpos : (0 : ℚ) < (q.den : ℚ) := by exact_mod_cast Nat.pos_of_ne_zero hd
  have a1q : (2 : ℚ) ^ (natLog2 q.num.natAbs : Int) ≤ (q.num.natAbs : ℚ) := by
    rw [zpow_natCast]; exact_mod_cast a1
  have a2q : (q.num.natAbs : ℚ) < (2 : ℚ) ^ ((natLog2 q.num.natAbs : Int) + 1) := by
    rw [show ((natLog2 q.num.natAbs : Int) + 1) = ((natLog2 q.num.natAbs + 1 : Nat) : Int) by simp,
      zpow_natCast]
    exact_mod_cast a2
  have b1q : (2 : ℚ) ^ (natLog2 q.den : Int) ≤ (q.den : ℚ) := by
    rw [zpow_natCast]; exact_mod_cast b1
  have b2q : (q.den : ℚ) < (2 : ℚ) ^ ((natLog2 q.den : Int) + 1) := by
    rw [show ((natLog2 q.den : Int) + 1) = ((natLog2 q.den + 1 : Nat) : Int) by simp,
      zpow_natCast]
    exact_mod_cast b2
  have h2 : (0 : ℚ) < 2 := by norm_num
  unfold ilog2
  simp only [pow2_eq_zpow]
  split_ifs with h
  · refine ⟨h, ?_⟩
    rw [habs, div_lt_iff₀ hdpos]
    calc (q.num.natAbs : ℚ) < (2 : ℚ) ^ ((natLog2 q.num.natAbs : Int) + 1) := a2q
      _ = (2 : ℚ) ^ ((natLog2 q.num.natAbs : Int) - (natLog2 q.den : Int) + 1)
            * (2 : ℚ) ^ (natLog2 q.den : Int) := by
          rw [← zpow_add₀ h2.ne']; congr 1; ring
      _ ≤ _ := by
          apply mul_le_mul_of_nonneg_left b1q (by positivity)
  · refine ⟨?_, ?_⟩
    · rw [habs, le_div_iff₀ hdpos]
      calc (2 : ℚ) ^ ((natLog2 q.num.natAbs : Int) - (natLog2 q.den : Int) - 1) * (q.den : ℚ)
          ≤ (2 : ℚ) ^ ((natLog2 q.num.natAbs : Int) - (natLog2 q.den : Int) - 1)
            * (2 : ℚ) ^ ((natLog2 q.den : Int) + 1) := by
            apply mul_le_mul_of_nonneg_left b2q.le (by positivity)
        _ = (2 : ℚ) ^ (natLog2 q.num.natAbs : Int) := by
            rw [← zpow_add₀ h2.ne']; congr 1; ring
        _ ≤ _ := a1q
    · rw [sub_add_cancel]; exact lt_of_not_ge h

theorem roundHalfEven_le (t : ℚ) (K : Int) (h : t ≤ (K : ℚ)) : roundHalfEven t ≤ K := by
  have hf : ⌊t⌋ ≤ K := by
    have := Int.floor_le t
    exact_mod_cast (Int.floor_le t).trans h |> fun h' => Int.cast_le.mp h'
  have hf2 : (⌊t⌋ : ℚ) < t → ⌊t⌋ + 1 ≤ K := by
    intro hlt
    have : ((⌊t⌋ : Int) : ℚ) < (K : ℚ) := lt_of_lt_of_le hlt h
    have := Int.cast_lt.mp this
    omega
  unfold roundHalfEven
  simp only
  split_ifs with h1 h2 h3
  · exact hf
  · apply hf2; linarith
  · exact hf
  · apply hf2; push_neg at h1; linarith

theorem le_roundHalfEven (t : ℚ) (K : Int) (h : (K : ℚ) ≤ t) : K ≤ roundHalfEven t := by
  have hf : K ≤ ⌊t⌋ := Int.le_floor.mpr h
  unfold roundHalfEven
  simp only
  split_ifs <;> omega

theorem roundHalfEven_intCast (K : Int) : roundHalfEven (K : ℚ) = K :=
  le_antisymm (roundHalfEven_le _ _ le_rfl) (le_roundHalfEven _ _ le_rfl)

theorem ulpExp_le (q : ℚ) (m : Nat) (j : Int) (hq : 0 < q) (hle : q ≤ (m : ℚ) * (2 : ℚ) ^ j)
    (hm : m < 2 ^ 53) (hj : -1074 ≤ j) : ulpExp q ≤ j := by
  have h1 := (ilog2_spec q hq.ne').1
  rw [abs_of_pos hq] at h1
  have hm' : (m : ℚ) < (2 : ℚ) ^ (53 : Int) := by
    rw [show ((53 : Int)) = ((53 : Nat) : Int) by rfl, zpow_natCast]
    exact_mod_cast hm
  have h2 : (2 : ℚ) ^ ilog2 q < (2 : ℚ) ^ (53 + j) := by
    calc (2 : ℚ) ^ ilog2 q ≤ q := h1
      _ ≤ (m : ℚ) * (2 : ℚ) ^ j := hle
      _ < (2 : ℚ) ^ (53 : Int) * (2 : ℚ) ^ j := by
          apply mul_lt_mul_of_pos_right hm' (by positivity)
      _ = (2 : ℚ) ^ (53 + j) := by rw [← zpow_add₀ (by norm_num : (2 : ℚ) ≠ 0)]
  have h3 : ilog2 q < 53 + j := (zpow_lt_zpow_iff_right₀ (by norm_num : (1 : ℚ) < 2)).mp h2
  unfold ulpExp
  omega

theorem ulpExp_ge (q : ℚ) : -1074 ≤ ulpExp q := by
  unfold ulpExp; omega

/-- On the grid of spacing `2 ^ e`, a multiple `m * 2 ^ j` with `e ≤ j` is an
integer number of steps. -/
theorem grid_steps (m : Nat) (j e : Int) (h : e ≤ j) :
    (m : ℚ) * (2 : ℚ) ^ j / (2 : ℚ) ^ e = (((m : Int) * 2 ^ (j - e).toNat : Int) : ℚ) := by
  have h2 : (2 : ℚ) ≠ 0 := by norm_num
  rw [mul_div_assoc, ← zpow_sub₀ h2]
  obtain ⟨n, hn⟩ := Int.eq_ofNat_of_zero_le (show 0 ≤ j - e by omega)
  rw [hn]
  simp

theorem roundNearest_zero : roundNearest 0 = CDouble.fin 0 := by
  have h := pow2_pos 1024
  unfold roundNearest
  simp [roundHalfEven]
  exact h

/-- Rounding never crosses a representable value from below: for
`0 ≤ q ≤ m * 2 ^ j` the rounded value is finite and in the same interval. -/
theorem roundNearest_le (q : ℚ) (m : Nat) (j : Int) (hq : 0 ≤ q)
    (hle : q ≤ (m : ℚ) * (2 : ℚ) ^ j) (hm : m < 2 ^ 53) (hj : -1074 ≤ j)
    (hmax : (m : ℚ) * (2 : ℚ) ^ j < (2 : ℚ) ^ (1024 : Int)) :
    ∃ v, roundNearest q = CDouble.fin v ∧ 0 ≤ v ∧ v ≤ (m : ℚ) * (2 : ℚ) ^ j := by
  rcases hq.eq_or_lt with h0 | hpos
  · subst h0
    exact ⟨0, roundNearest_zero, le_rfl, hle⟩
  · have he := ulpExp_le q m j hpos hle hm hj
    have hp : (0 : ℚ) < (2 : ℚ) ^ ulpExp q := by positivity
    have hK := grid_steps m j (ulpExp q) he
    have hup : roundHalfEven (q / (2 : ℚ) ^ ulpExp q) ≤ (m : Int) * 2 ^ (j - ulpExp q).toNat := by
      apply roundHalfEven_le
      rw [← hK]
      exact div_le_div_of_nonneg_right hle hp.le
    have hlo : 0 ≤ roundHalfEven (q / (2 : ℚ) ^ ulpExp q) := by
      apply le_roundHalfEven
      simpa using (div_pos hpos hp).le
    have hv0 : (0 : ℚ) ≤ (roundHalfEven (q / (2 : ℚ) ^ ulpExp q) : ℚ) * (2 : ℚ) ^ ulpExp q :=
      mul_nonneg (by exact_mod_cast hlo) hp.le
    have hv1 : (roundHalfEven (q / (2 : ℚ) ^ ulpExp q) : ℚ) * (2 : ℚ) ^ ulpExp q
        ≤ (m : ℚ) * (2 : ℚ) ^ j := by
      calc (roundHalfEven (q / (2 : ℚ) ^ ulpExp q) : ℚ) * (2 : ℚ) ^ ulpExp q
          ≤ (((m : Int) * 2 ^ (j - ulpExp q).toNat : Int) : ℚ) * (2 : ℚ) ^ ulpExp q := by
            apply mul_le_mul_of_nonneg_right (by exact_mod_cast hup) hp.le
        _ = (m : ℚ) * (2 : ℚ) ^ j := by
            rw [← hK]; field_simp
    refine ⟨_, ?_, hv0, hv1⟩
    unfold roundNearest
    simp only [pow2_eq_zpow]
    rw [if_neg]
    rw [abs_of_nonneg hv0]
    exact not_le.mpr (lt_of_le_of_lt hv1 hmax)

/-- Values `m * 2 ^ j` with a 53-bit `m` and `j` in range are binary64 values:
rounding leaves them unchanged. -/
theorem roundNearest_exact (m : Nat) (j : Int) (hm : m < 2 ^ 53) (hj : -1074 ≤ j)
    (hmax : (m : ℚ) * (2 : ℚ) ^ j < (2 : ℚ) ^ (1024 : Int)) :
    roundNearest ((m : ℚ) * (2 : ℚ) ^ j) = CDouble.fin ((m : ℚ) * (2 : ℚ) ^ j) := by
  rcases Nat.eq_zero_or_pos m with h0 | hpos
  · subst h0; simp [roundNearest_zero]
  · have hqpos : (0 : ℚ) < (m : ℚ) * (2 : ℚ) ^ j := by positivity
    have he := ulpExp_le _ m j hqpos le_rfl hm hj
    have hp : (0 : ℚ) < (2 : ℚ) ^ ulpExp ((m : ℚ) * (2 : ℚ) ^ j) := by positivity
    have hK := grid_steps m j _ he
    have hv : (roundHalfEven ((m : ℚ) * (2 : ℚ) ^ j / (2 : ℚ) ^ ulpExp ((m : ℚ) * (2 : ℚ) ^ j)) : ℚ)
        * (2 : ℚ) ^ ulpExp ((m : ℚ) * (2 : ℚ) ^ j) = (m : ℚ) * (2 : ℚ) ^ j := by
      rw [hK, roundHalfEven_intCast, ← hK]; field_simp
    unfold roundNearest
    simp only [pow2_eq_zpow]
    rw [hv, if_neg]
    rw [abs_of_pos hqpos]
    exact not_le.mpr hmax

theorem ofInt_natCast (n : Nat) (h : n < 2 ^ 53) :
    CDouble.ofInt (n : Int) = CDouble.fin (n : ℚ) := by
  have hmax : (n : ℚ) * (2 : ℚ) ^ (0 : Int) < (2 : ℚ) ^ (1024 : Int) := by
    have h1 : (n : ℚ) < (2 : ℚ) ^ (53 : Nat) := by exact_mod_cast h
    have h2 : (2 : ℚ) ^ (53 : Nat) ≤ (2 : ℚ) ^ (1024 : Nat) :=
      pow_le_pow_right₀ (by norm_num) (by norm_num)
    rw [zpow_zero, mul_one, show ((1024 : Int)) = ((1024 : Nat) : Int) by rfl, zpow_natCast]
    exact lt_of_lt_of_le h1 h2
  have := roundNearest_exact n 0 h (by norm_num) hmax
  simpa [CDouble.ofInt] using this

theorem roundNearest_representable (q v : ℚ) (hq : 0 ≤ q)
    (h : roundNearest q = CDouble.fin v) : Representable v := by
  rcases hq.eq_or_lt with h0 | hpos
  · subst h0
    rw [roundNearest_zero] at h
    injection h with h
    exact ⟨0, 0, by norm_num, by norm_num, by simp [← h]⟩
  · have hp : (0 : ℚ) < (2 : ℚ) ^ ulpExp q := by positivity
    have hv : v = (roundHalfEven (q / (2 : ℚ) ^ ulpExp q) : ℚ) * (2 : ℚ) ^ ulpExp q := by
      unfold roundNearest at h
      simp only [pow2_eq_zpow] at h
      split_ifs at h
      injection h with h
      exact h.symm
    have hlo : 0 ≤ roundHalfEven (q / (2 : ℚ) ^ ulpExp q) := by
      apply le_roundHalfEven
      simpa using (div_pos hpos hp).le
    have hlt : q < (2 : ℚ) ^ (ulpExp q + 53) := by
      have h1 := (ilog2_spec q hpos.ne').2
      rw [abs_of_pos hpos] at h1
      refine lt_of_lt_of_le h1 (zpow_le_zpow_right₀ (by norm_num) ?_)
      unfold ulpExp; omega
    have hup : roundHalfEven (q / (2 : ℚ) ^ ulpExp q) ≤ 2 ^ 53 := by
      apply roundHalfEven_le
      rw [div_le_iff₀ hp]
      have : (2 : ℚ) ^ (ulpExp q + 53) = ((2 ^ 53 : Int) : ℚ) * (2 : ℚ) ^ ulpExp q := by
        rw [zpow_add₀ (by norm_num : (2 : ℚ) ≠ 0), mul_comm]; norm_num
      rw [← this]; exact hlt.le
    have he := ulpExp_ge q
    obtain ⟨M, hM⟩ := Int.eq_ofNat_of_zero_le hlo
    rw [hM] at hup hv
    rcases (show M < 2 ^ 53 ∨ M = 2 ^ 53 by omega) with hlt53 | heq
    · exact ⟨M, ulpExp q, hlt53, he, by simpa using hv⟩
    · refine ⟨2 ^ 52, ulpExp q + 1, by norm_num, by omega, ?_⟩
      rw [hv, heq, zpow_add₀ (by norm_num : (2 : ℚ) ≠ 0)]
      push_cast
      ring

/-- Multiplying a binary64 value in `[0, 1]` by four is exact. -/
theorem roundNearest_mul_four (v : ℚ) (hr : Representable v) (h1 : v ≤ 1) :
    roundNearest (v * 4) = CDouble.fin (v * 4) := by
  obtain ⟨m, j, hm, hj, rfl⟩ := hr
  have e : (m : ℚ) * (2 : ℚ) ^ j * 4 = (m : ℚ) * (2 : ℚ) ^ (j + 2) := by
    rw [zpow_add₀ (by norm_num : (2 : ℚ) ≠ 0)]; norm_num; ring
  rw [e]
  apply roundNearest_exact m (j + 2) hm (by omega)
  rw [← e]
  have : (4 : ℚ) < (2 : ℚ) ^ (1024 : Int) := by
    rw [show ((1024 : Int)) = ((1024 : Nat) : Int) by rfl, zpow_natCast]
    calc (4 : ℚ) = (2 : ℚ) ^ (2 : Nat) := by norm_num
      _ < (2 : ℚ) ^ (1024 : Nat) := pow_lt_pow_right₀ (by norm_num) (by norm_num)
  linarith

/-! ## Facts about the samples and the final ratio -/

theorem two_zpow_1024_gt (c : ℚ) (h : c ≤ 4) : c < (2 : ℚ) ^ (1024 : Int) := by
  have : (4 : ℚ) < (2 : ℚ) ^ (1024 : Int) := by
    rw [show ((1024 : Int)) = ((1024 : Nat) : Int) by rfl, zpow_natCast]
    calc (4 : ℚ) = (2 : ℚ) ^ (2 : Nat) := by norm_num
      _ < (2 : ℚ) ^ (1024 : Nat) := pow_lt_pow_right₀ (by norm_num) (by norm_num)
  linarith

/-- An integer quotient `a / b` with `0 ≤ a ≤ b`, `0 < b < 2 ^ 53`, computed in
doubles, is the correctly rounded rational quotient. -/
theorem div_ofInt_eq (a b : Nat) (hb : 0 < b) (hb53 : b < 2 ^ 53) (hab : a ≤ b) :
    CDouble.div (CDouble.ofInt a) (CDouble.ofInt b) = roundNearest ((a : ℚ) / (b : ℚ)) := by
  rw [ofInt_natCast a (by omega), ofInt_natCast b hb53]
  have : (b : ℚ) ≠ 0 := by exact_mod_cast hb.ne'
  simp [CDouble.div, this]

theorem roundNearest_unit (q : ℚ) (h0 : 0 ≤ q) (h1 : q ≤ 1) :
    ∃ v, roundNearest q = CDouble.fin v ∧ 0 ≤ v ∧ v ≤ 1 ∧ Representable v := by
  obtain ⟨v, hv, hv0, hv1⟩ := roundNearest_le q 1 0 h0 (by simpa using h1) (by norm_num)
    (by norm_num) (by simpa using two_zpow_1024_gt 1 (by norm_num))
  exact ⟨v, hv, hv0, by simpa using hv1, roundNearest_representable q v h0 hv⟩

theorem scaled_spec (M r : Nat) (hM : 0 < M) (hM53 : M < 2 ^ 53) (hr : r ≤ M) :
    ∃ v, scaled M r = CDouble.fin v ∧ 0 ≤ v ∧ v ≤ 1 ∧ Representable v := by
  unfold scaled
  rw [div_ofInt_eq r M hM hM53 hr]
  have hMq : (0 : ℚ) < (M : ℚ) := by exact_mod_cast hM
  apply roundNearest_unit
  · positivity
  · rw [div_le_one hMq]; exact_mod_cast hr

theorem scaled_max (M : Nat) (hM : 0 < M) (hM53 : M < 2 ^ 53) :
    scaled M M = CDouble.fin 1 := by
  unfold scaled
  rw [div_ofInt_eq M M hM hM53 le_rfl]
  have hMq : (M : ℚ) ≠ 0 := by exact_mod_cast hM.ne'
  rw [div_self hMq]
  have := roundNearest_exact 1 0 (by norm_num) (by norm_num)
    (by simpa using two_zpow_1024_gt 1 (by norm_num))
  simpa using this

theorem scaled_lt_one (M r : Nat) (hM53 : M < 2 ^ 53) (hr : r < M) :
    ∃ v, scaled M r = CDouble.fin v ∧ 0 ≤ v ∧ v < 1 := by
  have hM : 0 < M := by omega
  unfold scaled
  rw [div_ofInt_eq r M hM hM53 hr.le]
  have hMq : (0 : ℚ) < (M : ℚ) := by exact_mod_cast hM
  have hc : ((2 ^ 53 - 1 : Nat) : ℚ) * (2 : ℚ) ^ (-53 : Int) = 1 - 1 / 2 ^ 53 := by
    rw [zpow_neg]; norm_num
  have hq : (r : ℚ) / (M : ℚ) ≤ ((2 ^ 53 - 1 : Nat) : ℚ) * (2 : ℚ) ^ (-53 : Int) := by
    rw [hc, div_le_iff₀ hMq]
    have h1 : (r : ℚ) + 1 ≤ (M : ℚ) := by exact_mod_cast hr
    have h2 : (M : ℚ) ≤ 2 ^ 53 := by exact_mod_cast hM53.le
    have h3 : (M : ℚ) * (1 / 2 ^ 53) ≤ 1 := by
      rw [mul_one_div, div_le_one (by positivity)]; exact h2
    linarith
  obtain ⟨v, hv, hv0, hv1⟩ := roundNearest_le _ (2 ^ 53 - 1) (-53) (by positivity) hq
    (by norm_num) (by norm_num) (by rw [hc]; apply two_zpow_1024_gt; norm_num)
  refine ⟨v, hv, hv0, ?_⟩
  rw [hc] at hv1
  have : (0 : ℚ) < 1 / 2 ^ 53 := by positivity
  linarith

/-- The final ratio `(double)count/niter*4` for `0 ≤ count ≤ niter`,
`0 < niter < 2 ^ 53`: the quotient is rounded once, the product is exact. -/
theorem ratio_spec (c N : Nat) (hN : 0 < N) (hN53 : N < 2 ^ 53) (hc : c ≤ N) :
    ∃ w, roundNearest ((c : ℚ) / (N : ℚ)) = CDouble.fin w ∧ 0 ≤ w ∧ w ≤ 1 ∧
      CDouble.mul (CDouble.div (CDouble.ofInt c) (CDouble.ofInt N)) (CDouble.ofInt 4)
        = CDouble.fin (w * 4) := by
  have hNq : (0 : ℚ) < (N : ℚ) := by exact_mod_cast hN
  obtain ⟨w, hw, hw0, hw1, hrep⟩ := roundNearest_unit ((c : ℚ) / (N : ℚ)) (by positivity)
    (by rw [div_le_one hNq]; exact_mod_cast hc)
  refine ⟨w, hw, hw0, hw1, ?_⟩
  rw [div_ofInt_eq c N hN hN53 hc, hw]
  have h4 : CDouble.ofInt 4 = CDouble.fin 4 := by
    simpa using ofInt_natCast 4 (by norm_num)
  rw [h4]
  simp only [CDouble.mul]
  exact roundNearest_mul_four w hrep hw1

/-- The inclusion test is the rounded one.  With `RAND_MAX = 2147483647` the
raw outputs `(RAND_MAX, 1)` give `x = 1` and `y = 1 / RAND_MAX`; the sum
`x*x+y*y` rounds to `1.0` and the sample passes, although the exact rational
sum is above 1. -/
theorem inCircle_rounds_boundary :
    inCircle (scaled 2147483647 2147483647) (scaled 2147483647 1) = true ∧
    (1 : ℚ) < (2147483647 / 2147483647) ^ 2 + (1 / 2147483647) ^ 2 := by
  constructor
  · decide!
  · norm_num

/-! ## Facts about the loop -/

theorem wrapInt_of_range (v : Int) (h0 : -2 ^ 31 ≤ v) (h1 : v < 2 ^ 31) : wrapInt v = v := by
  unfold wrapInt; omega

theorem loopBody_gen (G : RandGen) (s : Locals G) :
    (loopBody G s).gen = advance G (advance G s.gen) := rfl

theorem loopBody_i (G : RandGen) (s : Locals G) : (loopBody G s).i = wrapInt (s.i + 1) := rfl

theorem loopBody_count (G : RandGen) (s : Locals G) :
    (loopBody G s).count =
      if inCircle (scaled G.RAND_MAX (G.rand s.gen).1)
          (scaled G.RAND_MAX (G.rand (advance G s.gen)).1)
      then wrapInt (s.count + 1) else s.count := rfl

theorem stateAfter_succ (G : RandGen) (seed k : Nat) :
    stateAfter G seed (k + 1) = loopBody G (stateAfter G seed k) := by
  unfold stateAfter
  rw [Function.iterate_succ_apply']

theorem stateAfter_gen (G : RandGen) (seed k : Nat) :
    (stateAfter G seed k).gen = (advance G)^[2 * k] (G.srand seed) := by
  induction k with
  | zero => rfl
  | succ k ih =>
    rw [stateAfter_succ, loopBody_gen, ih, show 2 * (k + 1) = (2 * k + 1) + 1 by ring,
      Function.iterate_succ_apply', Function.iterate_succ_apply']

theorem insideCount_succ (M : Nat) (r : Nat → Nat) (N : Nat) :
    insideCount M r (N + 1) = insideCount M r N + (if passes M r N then 1 else 0) := by
  unfold insideCount
  rw [List.range_succ, List.filter_append, List.length_append]
  by_cases h : passes M r N <;> simp [h]

theorem insideCount_le (M : Nat) (r : Nat → Nat) (N : Nat) : insideCount M r N ≤ N := by
  unfold insideCount
  exact (List.length_filter_le _ _).trans (by simp)

theorem insideCount_congr (M : Nat) (r r' : Nat → Nat) (N : Nat)
    (h : ∀ k, k < 2 * N → r k = r' k) : insideCount M r N = insideCount M r' N := by
  unfold insideCount
  congr 1
  apply List.filter_congr
  intro i hi
  have hi' : i < N := List.mem_range.mp hi
  unfold passes
  rw [h (2 * i) (by omega), h (2 * i + 1) (by omega)]

theorem stateAfter_count_step (G : RandGen) (seed k : Nat) :
    (stateAfter G seed (k + 1)).count =
      if passes G.RAND_MAX (rawDraw G (G.srand seed)) k
      then wrapInt ((stateAfter G seed k).count + 1) else (stateAfter G seed k).count := by
  rw [stateAfter_succ, loopBody_count, stateAfter_gen]
  unfold passes rawDraw
  rw [Function.iterate_succ_apply']

theorem stateAfter_spec (G : RandGen) (seed k : Nat) (hk : k < 2 ^ 31) :
    (stateAfter G seed k).i = k ∧
      (stateAfter G seed k).count = insideCount G.RAND_MAX (rawDraw G (G.srand seed)) k := by
  induction k with
  | zero => exact ⟨rfl, rfl⟩
  | succ k ih =>
    obtain ⟨ihi, ihc⟩ := ih (by omega)
    have hle := insideCount_le G.RAND_MAX (rawDraw G (G.srand seed)) k
    refine ⟨?_, ?_⟩
    · rw [stateAfter_succ, loopBody_i, ihi, wrapInt_of_range _ (by omega) (by omega)]
      push_cast; rfl
    · rw [stateAfter_count_step, insideCount_succ, ihc]
      split_ifs
      · rw [wrapInt_of_range _ (by omega) (by omega)]; push_cast; rfl
      · simp

/-- The loop started in the state after `k` passes runs the remaining passes
and stops; any fuel of at least the number of remaining passes is enough. -/
theorem loop_stateAfter (G : RandGen) (seed N : Nat) (hN : N < 2 ^ 31) :
    ∀ (fuel k : Nat), k ≤ N → N - k ≤ fuel →
      loop G (N : Int) fuel (stateAfter G seed k) = some (stateAfter G seed N) := by
  intro fuel
  induction fuel with
  | zero =>
    intro k hk hf
    have hkN : k = N := by omega
    subst hkN
    have hi := (stateAfter_spec G seed k hN).1
    simp [loop, hi]
  | succ fuel ih =>
    intro k hk hf
    have hi := (stateAfter_spec G seed k (by omega)).1
    rcases Nat.lt_or_ge k N with hlt | hge
    · have hcond : (stateAfter G seed k).i < (N : Int) := by rw [hi]; exact_mod_cast hlt
      rw [loop, if_pos hcond, ← stateAfter_succ]
      exact ih (k + 1) (by omega) (by omega)
    · have hkN : k = N := by omega
      subst hkN
      simp [loop, hi]

theorem loop_init (G : RandGen) (seed N fuel : Nat) (hN : N < 2 ^ 31) (hf : N ≤ fuel) :
    loop G (N : Int) fuel (initLocals G seed) = some (stateAfter G seed N) :=
  loop_stateAfter G seed N hN fuel 0 (Nat.zero_le _) (by simpa using hf)

theorem rawDraw_streamGen (M : Nat) (r : Nat → Nat) (seed k : Nat) :
    rawDraw (streamGen M r) ((streamGen M r).srand seed) k = r k := by
  have h : ∀ (j : Nat) (g : Nat), (advance (streamGen M r))^[j] g = g + j := by
    intro j
    induction j with
    | zero => intro g; rfl
    | succ j ih =>
      intro g
      rw [Function.iterate_succ_apply, ih]
      show g + 1 + j = g + (j + 1)
      omega
  unfold rawDraw
  rw [h]
  show r (0 + k) = r k
  rw [Nat.zero_add]

theorem mainWith_eq (G : RandGen) (fmtG : CDouble → String) (seed N fuel : Nat)
    (hN : N < 2 ^ 31) (hf : N ≤ fuel) :
    mainWith G fmtG (N : Int) seed fuel =
      some { count := (stateAfter G seed N).count,
             pi := CDouble.mul (CDouble.div (CDouble.ofInt (stateAfter G seed N).count)
               (CDouble.ofInt (N : Int))) (CDouble.ofInt 4),
             out := "estimate of pi is " ++
               fmtG (CDouble.mul (CDouble.div (CDouble.ofInt (stateAfter G seed N).count)
                 (CDouble.ofInt (N : Int))) (CDouble.ofInt 4)) ++ " \n" } := by
  unfold mainWith
  rw [loop_init G seed N fuel hN hf]

theorem insideCount_mono (M : Nat) (r : Nat → Nat) : Monotone (insideCount M r) :=
  monotone_nat_of_le_succ (fun n => by rw [insideCount_succ]; omega)

theorem reachable_stateAfter (G : RandGen) (seed N : Nat) (hN : N < 2 ^ 31) (s : Locals G)
    (hs : Reachable G (N : Int) seed s) : ∃ k, k ≤ N ∧ s = stateAfter G seed k := by
  induction hs with
  | init => exact ⟨0, Nat.zero_le _, rfl⟩
  | step s _ hlt ih =>
    obtain ⟨k, hk, rfl⟩ := ih
    have hi := (stateAfter_spec G seed k (by omega)).1
    rw [hi] at hlt
    have hlt' : k < N := by exact_mod_cast hlt
    exact ⟨k + 1, hlt', (stateAfter_succ G seed k).symm⟩

theorem stateAfter_reachable (G : RandGen) (seed N : Nat) (hN : N < 2 ^ 31) (k : Nat)
    (hk : k ≤ N) : Reachable G (N : Int) seed (stateAfter G seed k) := by
  induction k with
  | zero => exact Reachable.init
  | succ k ih =>
    rw [stateAfter_succ]
    refine Reachable.step _ (ih (by omega)) ?_
    rw [(stateAfter_spec G seed k (by omega)).1]
    exact_mod_cast hk

/-- The final state, with the count as a natural number at most `N`. -/
theorem final_count (G : RandGen) (seed N : Nat) (hN : N < 2 ^ 31) :
    ∃ c : Nat, c ≤ N ∧ (stateAfter G seed N).count = (c : Int) :=
  ⟨_, insideCount_le _ _ _, (stateAfter_spec G seed N hN).2⟩

theorem advance_recording (G : RandGen) (g : G.State) (log : List Nat) :
    advance (recording G) (g, log) = (advance G g, log ++ [(G.rand g).1]) := rfl

theorem stateAfter_recording (G : RandGen) (seed k : Nat) :
    (stateAfter (recording G) seed k).gen =
      ((advance G)^[2 * k] (G.srand seed),
        (List.range (2 * k)).map (rawDraw G (G.srand seed))) := by
  induction k with
  | zero => rfl
  | succ k ih =>
    rw [stateAfter_succ, loopBody_gen, ih, advance_recording, advance_recording,
      show 2 * (k + 1) = (2 * k + 1) + 1 by ring, List.range_succ, List.range_succ,
      List.map_append, List.map_append, Function.iterate_succ_apply',
      Function.iterate_succ_apply']
    simp only [rawDraw, List.map_cons, List.map_nil, Function.iterate_succ_apply']

/-- Every intermediate double of a pass is finite when both raw outputs are at
most `RAND_MAX`. -/
theorem sample_finite (M r1 r2 : Nat) (hM : 0 < M) (hM31 : M < 2 ^ 31)
    (h1 : r1 ≤ M) (h2 : r2 ≤ M) :
    ∃ x y xx yy z, scaled M r1 = CDouble.fin x ∧ scaled M r2 = CDouble.fin y ∧
      CDouble.mul (scaled M r1) (scaled M r1) = CDouble.fin xx ∧
      CDouble.mul (scaled M r2) (scaled M r2) = CDouble.fin yy ∧
      CDouble.add (CDouble.mul (scaled M r1) (scaled M r1))
        (CDouble.mul (scaled M r2) (scaled M r2)) = CDouble.fin z := by
  have hM53 : M < 2 ^ 53 := lt_trans hM31 (by norm_num)
  obtain ⟨x, hx, hx0, hx1, _⟩ := scaled_spec M r1 hM hM53 h1
  obtain ⟨y, hy, hy0, hy1, _⟩ := scaled_spec M r2 hM hM53 h2
  obtain ⟨xx, hxx, hxx0, hxx1, _⟩ := roundNearest_unit (x * x) (by positivity)
    (by nlinarith)
  obtain ⟨yy, hyy, hyy0, hyy1, _⟩ := roundNearest_unit (y * y) (by positivity)
    (by nlinarith)
  obtain ⟨z, hz, _, _⟩ := roundNearest_le (xx + yy) 1 1 (by positivity)
    (by norm_num; linarith) (by norm_num) (by norm_num)
    (by apply two_zpow_1024_gt; norm_num)
  refine ⟨x, y, xx, yy, z, hx, hy, ?_, ?_, ?_⟩
  · rw [hx]; exact hxx
  · rw [hy]; exact hyy
  · rw [hx, hy]
    simp only [CDouble.mul]
    rw [hxx, hyy]
    exact hz

theorem estimate_bounds_aux (G : RandGen) (fmtG : CDouble → String)
    (seed N fuel : Nat) (h1 : 1 ≤ N) (hN : N < 2 ^ 31) (hf : N ≤ fuel) :
    ∃ r v, mainWith G fmtG (N : Int) seed fuel = some r ∧ r.pi = CDouble.fin v ∧
      0 ≤ v ∧ v ≤ 4 := by
  obtain ⟨c, hc, hcount⟩ := final_count G seed N hN
  obtain ⟨w, _, hw0, hw1, hpi⟩ := ratio_spec c N h1 (by omega) hc
  refine ⟨_, w * 4, mainWith_eq G fmtG seed N fuel hN hf, ?_, by linarith, by linarith⟩
  simp only [hcount]; exact hpi

theorem line_data (t : String) :
    ("estimate of pi is " ++ t ++ " \n").data
      = "estimate of pi is ".data ++ (t.data ++ [' ', Char.ofNat 10]) := by
  rw [String.data_append, String.data_append, List.append_assoc]

/-- The output line has a single newline, its last character, when the
rendering `t` of the number has none. -/
theorem line_shape (t : String) (h : Char.ofNat 10 ∉ t.data) :
    ("estimate of pi is " ++ t ++ " \n").data.count (Char.ofNat 10) = 1 ∧
    ("estimate of pi is " ++ t ++ " \n").data.getLast? = some (Char.ofNat 10) := by
  rw [line_data]
  constructor
  · rw [List.count_append, List.count_append, List.count_eq_zero_of_not_mem h]
    decide
  · rw [← List.append_assoc, show [' ', Char.ofNat 10] = [' '] ++ [Char.ofNat 10] by rfl,
      ← List.append_assoc, List.getLast?_append]
    rfl

theorem scaled_zero (M : Nat) (hM : 0 < M) (hM53 : M < 2 ^ 53) :
    scaled M 0 = CDouble.fin 0 := by
  unfold scaled
  rw [div_ofInt_eq 0 M hM hM53 (Nat.zero_le _)]
  simp [roundNearest_zero]

/-- The inclusion test at the two boundary samples `(1, 0)` and `(0, 1)`. -/
theorem inCircle_boundary :
    inCircle (CDouble.fin 1) (CDouble.fin 0) = true ∧
    inCircle (CDouble.fin 0) (CDouble.fin 1) = true := by
  constructor <;> decide!

theorem insideCount_all (M : Nat) (r : Nat → Nat) (N : Nat)
    (h : ∀ i, i < N → passes M r i = true) : insideCount M r N = N := by
  induction N with
  | zero => rfl
  | succ N ih =>
    rw [insideCount_succ, ih (fun i hi => h i (by omega)), h N (by omega)]
    simp

/-- The final ratio when every sample was counted: `N / N * 4` is exactly 4. -/
theorem ratio_full (N : Nat) (hN : 0 < N) (hN53 : N < 2 ^ 53) :
    CDouble.mul (CDouble.div (CDouble.ofInt N) (CDouble.ofInt N)) (CDouble.ofInt 4)
      = CDouble.fin 4 := by
  obtain ⟨w, hw, _, _, hpi⟩ := ratio_spec N N hN hN53 le_rfl
  have hNq : (N : ℚ) ≠ 0 := by exact_mod_cast hN.ne'
  rw [div_self hNq] at hw
  have h1 : roundNearest 1 = CDouble.fin 1 := by
    simpa using roundNearest_exact 1 0 (by norm_num) (by norm_num)
      (by simpa using two_zpow_1024_gt 1 (by norm_num))
  rw [h1] at hw
  injection hw with hw
  rw [hpi, ← hw]
  norm_num

/-- With less fuel than passes remain, the loop does not reach its exit. -/
theorem loop_short_fuel (G : RandGen) (seed N : Nat) (hN : N < 2 ^ 31) :
    ∀ (fuel k : Nat), k ≤ N → fuel < N - k →
      loop G (N : Int) fuel (stateAfter G seed k) = none := by
  intro fuel
  induction fuel with
  | zero =>
    intro k hk hf
    have hi := (stateAfter_spec G seed k (by omega)).1
    have hcond : (stateAfter G seed k).i < (N : Int) := by rw [hi]; exact_mod_cast (by omega : k < N)
    simp [loop, hcond]
  | succ fuel ih =>
    intro k hk hf
    have hi := (stateAfter_spec G seed k (by omega)).1
    have hcond : (stateAfter G seed k).i < (N : Int) := by rw [hi]; exact_mod_cast (by omega : k < N)
    rw [loop, if_pos hcond, ← stateAfter_succ]
    exact ih (k + 1) (by omega) (by omega)

/-! ## The claims -/

/-- C1: for every iteration count `N` (a non-negative `int`) and every
generator, the loop of `main` stops and leaves in `count` the number of
indices `i < N` whose sample passes the inclusion test `x*x+y*y <= 1`, where
`x` is computed from raw output `2 * i` and `y` from raw output `2 * i + 1`
(arithmetic and comparison are those of the C doubles).  `count` starts at 0
and each pass adds one exactly when its sample passes.  The second part
states the same for a generator replaying an arbitrary output stream `r`. -/
theorem counter_counts_inside (G : RandGen) (seed N fuel : Nat)
    (hN : N < 2 ^ 31) (hf : N ≤ fuel) :
    (∃ s, loop G (N : Int) fuel (initLocals G seed) = some s ∧ s.i = N ∧
      s.count = insideCount G.RAND_MAX (rawDraw G (G.srand seed)) N) ∧
    (initLocals G seed).count = 0 ∧
    (∀ k, k < N → (stateAfter G seed (k + 1)).count = (stateAfter G seed k).count +
      (if passes G.RAND_MAX (rawDraw G (G.srand seed)) k then 1 else 0)) ∧
    (∀ (M : Nat) (r : Nat → Nat),
      ∃ s, loop (streamGen M r) (N : Int) fuel (initLocals (streamGen M r) seed) = some s ∧
        s.count = insideCount M r N) := by
  refine ⟨⟨_, loop_init G seed N fuel hN hf, ?_, ?_⟩, rfl, ?_, ?_⟩
  · exact (stateAfter_spec G seed N hN).1
  · exact (stateAfter_spec G seed N hN).2
  · intro k hk
    have h1 := (stateAfter_spec G seed (k + 1) (by omega)).2
    have h2 := (stateAfter_spec G seed k (by omega)).2
    rw [h1, h2, insideCount_succ]
    split_ifs <;> simp
  · intro M r
    refine ⟨_, loop_init (streamGen M r) seed N fuel hN hf, ?_⟩
    rw [(stateAfter_spec (streamGen M r) seed N hN).2]
    have : insideCount M (rawDraw (streamGen M r) ((streamGen M r).srand seed)) N
        = insideCount M r N :=
      insideCount_congr M _ _ N (fun k _ => rawDraw_streamGen M r seed k)
    exact_mod_cast this

/-- Witness for `counter_counts_inside`: seven passes with the generator `lcg`;
six of the seven samples pass the test. -/
theorem counter_counts_inside_witness :
    (7 : Nat) < 2 ^ 31 ∧ (7 : Nat) ≤ 9 ∧
    (∃ s, loop lcg ((7 : Nat) : Int) 9 (initLocals lcg SEED) = some s ∧ s.i = (7 : Nat) ∧
      s.count = insideCount lcg.RAND_MAX (rawDraw lcg (lcg.srand SEED)) 7) ∧
    insideCount lcg.RAND_MAX (rawDraw lcg (lcg.srand SEED)) 7 = 6 :=
  ⟨by norm_num, by norm_num,
    (counter_counts_inside lcg SEED 7 9 (by norm_num) (by norm_num)).1, by decide!⟩

/-- C2: for every `N ≥ 1` the estimate of a run is computed from the final
`count` as `((double)count / niter) * 4`: a double division first, whose
result `w` is the rational quotient `count / N` rounded once to a double (not
an integer quotient), then a multiplication by 4, which is exact.  At
`count = 1`, `N = 3` the value differs from the integer evaluation of
`(count * 4) / N` and from `count / (N * 4)`. -/
theorem estimate_divides_then_multiplies (G : RandGen) (fmtG : CDouble → String)
    (seed N fuel : Nat) (h1 : 1 ≤ N) (hN : N < 2 ^ 31) (hf : N ≤ fuel) :
    (∃ r w, mainWith G fmtG (N : Int) seed fuel = some r ∧
      r.pi = CDouble.mul (CDouble.div (CDouble.ofInt r.count) (CDouble.ofInt (N : Int)))
        (CDouble.ofInt 4) ∧
      roundNearest ((r.count : ℚ) / (N : ℚ)) = CDouble.fin w ∧
      r.pi = CDouble.fin (w * 4)) ∧
    CDouble.mul (CDouble.div (CDouble.ofInt 1) (CDouble.ofInt 3)) (CDouble.ofInt 4)
      ≠ CDouble.ofInt (1 * 4 / 3) ∧
    CDouble.mul (CDouble.div (CDouble.ofInt 1) (CDouble.ofInt 3)) (CDouble.ofInt 4)
      ≠ CDouble.div (CDouble.ofInt 1) (CDouble.ofInt (3 * 4)) := by
  refine ⟨?_, by decide!, by decide!⟩
  obtain ⟨c, hc, hcount⟩ := final_count G seed N hN
  obtain ⟨w, hw, _, _, hpi⟩ := ratio_spec c N h1 (by omega) hc
  refine ⟨_, w, mainWith_eq G fmtG seed N fuel hN hf, rfl, ?_, ?_⟩
  · simp only [hcount, Int.cast_natCast]
    exact hw
  · simp only [hcount]
    exact hpi

/-- Witness for `estimate_divides_then_multiplies`: ten passes with `lcg`. -/
theorem estimate_divides_then_multiplies_witness :
    (1 : Nat) ≤ 10 ∧ (10 : Nat) < 2 ^ 31 ∧ (10 : Nat) ≤ 10 ∧
    (∃ r w, mainWith lcg (fun _ => "") ((10 : Nat) : Int) SEED 10 = some r ∧
      r.pi = CDouble.mul (CDouble.div (CDouble.ofInt r.count) (CDouble.ofInt ((10 : Nat) : Int)))
        (CDouble.ofInt 4) ∧
      roundNearest ((r.count : ℚ) / ((10 : Nat) : ℚ)) = CDouble.fin w ∧
      r.pi = CDouble.fin (w * 4)) ∧
    (mainWith lcg (fun _ => "") ((10 : Nat) : Int) SEED 10).map (fun r => (r.count, r.pi))
      = some (8, CDouble.fin (3602879701896397 / 1125899906842624)) :=
  ⟨by norm_num, by norm_num, by norm_num,
    (estimate_divides_then_multiplies lcg (fun _ => "") SEED 10 10 (by norm_num) (by norm_num)
      (by norm_num)).1, by decide!⟩

/-- C3: for every `N ≥ 1` and every generator, the run yields an estimate, it
is a finite double, and `0 ≤ estimate ≤ 4` (as a value, and under the C
comparison `<=`). -/
theorem estimate_in_bounds (G : RandGen) (fmtG : CDouble → String)
    (seed N fuel : Nat) (h1 : 1 ≤ N) (hN : N < 2 ^ 31) (hf : N ≤ fuel) :
    ∃ r v, mainWith G fmtG (N : Int) seed fuel = some r ∧ r.pi = CDouble.fin v ∧
      0 ≤ v ∧ v ≤ 4 ∧
      CDouble.le (CDouble.ofInt 0) r.pi = true ∧ CDouble.le r.pi (CDouble.ofInt 4) = true := by
  obtain ⟨c, hc, hcount⟩ := final_count G seed N hN
  obtain ⟨w, _, hw0, hw1, hpi⟩ := ratio_spec c N h1 (by omega) hc
  have h0 : CDouble.ofInt 0 = CDouble.fin 0 := by simpa using ofInt_natCast 0 (by norm_num)
  have h4 : CDouble.ofInt 4 = CDouble.fin 4 := by simpa using ofInt_natCast 4 (by norm_num)
  have hv0 : (0 : ℚ) ≤ w * 4 := by linarith
  have hv4 : w * 4 ≤ 4 := by linarith
  refine ⟨_, w * 4, mainWith_eq G fmtG seed N fuel hN hf, ?_, hv0, hv4, ?_, ?_⟩
  · simp only [hcount]; exact hpi
  · simp only [hcount]
    rw [hpi, h0]
    simpa [CDouble.le] using hv0
  · simp only [hcount]
    rw [hpi, h4]
    simpa [CDouble.le] using hv4

/-- Witness for `estimate_in_bounds`: ten passes with `lcg`. -/
theorem estimate_in_bounds_witness :
    (1 : Nat) ≤ 10 ∧ (10 : Nat) < 2 ^ 31 ∧ (10 : Nat) ≤ 12 ∧
    ∃ r v, mainWith lcg (fun _ => "") ((10 : Nat) : Int) SEED 12 = some r ∧
      r.pi = CDouble.fin v ∧ 0 ≤ v ∧ v ≤ 4 ∧
      CDouble.le (CDouble.ofInt 0) r.pi = true ∧ CDouble.le r.pi (CDouble.ofInt 4) = true :=
  ⟨by norm_num, by norm_num, by norm_num,
    estimate_in_bounds lcg (fun _ => "") SEED 10 12 (by norm_num) (by norm_num) (by norm_num)⟩

/-- C4: loop invariant.  In every state in which the loop condition is tested
during a run with `N` passes, `0 ≤ count ≤ i ≤ N`; a pass leaves `count`
unchanged or adds exactly 1 to it; the reachable states are exactly the
states after `k ≤ N` passes, and `count` never decreases along them. -/
theorem counter_invariant (G : RandGen) (seed N : Nat) (hN : N < 2 ^ 31) (s : Locals G)
    (hs : Reachable G (N : Int) seed s) :
    (0 ≤ s.count ∧ s.count ≤ s.i ∧ s.i ≤ (N : Int)) ∧
    (s.i < (N : Int) →
      (loopBody G s).count = s.count ∨ (loopBody G s).count = s.count + 1) ∧
    (∃ k, k ≤ N ∧ s = stateAfter G seed k) ∧
    (∀ k, k ≤ N → Reachable G (N : Int) seed (stateAfter G seed k)) ∧
    (∀ j k, j ≤ k → k ≤ N →
      (stateAfter G seed j).count ≤ (stateAfter G seed k).count) := by
  obtain ⟨k, hk, rfl⟩ := reachable_stateAfter G seed N hN s hs
  obtain ⟨hi, hc⟩ := stateAfter_spec G seed k (by omega)
  have hle := insideCount_le G.RAND_MAX (rawDraw G (G.srand seed)) k
  refine ⟨⟨?_, ?_, ?_⟩, ?_, ⟨k, hk, rfl⟩, fun k hk => stateAfter_reachable G seed N hN k hk, ?_⟩
  · rw [hc]; exact Int.natCast_nonneg _
  · rw [hc, hi]; exact_mod_cast hle
  · rw [hi]; exact_mod_cast hk
  · intro _
    rw [loopBody_count]
    split_ifs
    · right
      rw [hc]
      exact wrapInt_of_range _ (by omega) (by omega)
    · left; rfl
  · intro j k' hjk hk'
    rw [(stateAfter_spec G seed j (by omega)).2, (stateAfter_spec G seed k' (by omega)).2]
    exact_mod_cast insideCount_mono G.RAND_MAX (rawDraw G (G.srand seed)) hjk

/-- Witness for `counter_invariant`: the state after all seven passes of a run
of seven passes with `lcg`, where `i = 7` and `count = 6`. -/
theorem counter_invariant_witness :
    (7 : Nat) < 2 ^ 31 ∧ Reachable lcg ((7 : Nat) : Int) SEED (stateAfter lcg SEED 7) ∧
    (0 ≤ (stateAfter lcg SEED 7).count ∧
      (stateAfter lcg SEED 7).count ≤ (stateAfter lcg SEED 7).i ∧
      (stateAfter lcg SEED 7).i ≤ ((7 : Nat) : Int)) ∧
    (stateAfter lcg SEED 7).i = 7 ∧ (stateAfter lcg SEED 7).count = 6 :=
  ⟨by norm_num, stateAfter_reachable lcg SEED 7 (by norm_num) 7 le_rfl,
    (counter_invariant lcg SEED 7 (by norm_num) (stateAfter lcg SEED 7)
      (stateAfter_reachable lcg SEED 7 (by norm_num) 7 le_rfl)).1,
    by decide!, by decide!⟩

/-- C5, as stated, fails: when `rand()` returns `RAND_MAX` (here with
`RAND_MAX = 2147483647`), `x = (double)rand()/RAND_MAX` is exactly `1.0`, which
is not below 1. -/
theorem sample_reaches_one :
    (2147483647 : Nat) ≤ 2147483647 ∧
    scaled 2147483647 2147483647 = CDouble.fin 1 ∧
    ¬ ∃ v, scaled 2147483647 2147483647 = CDouble.fin v ∧ 0 ≤ v ∧ v < 1 := by
  have h : scaled 2147483647 2147483647 = CDouble.fin 1 := by decide!
  refine ⟨le_rfl, h, ?_⟩
  rintro ⟨v, hv, _, hlt⟩
  rw [h] at hv
  injection hv with hv
  rw [← hv] at hlt
  exact lt_irrefl _ hlt

/-- C5, amended: for a raw output `0 ≤ r ≤ RAND_MAX` (with `RAND_MAX` a
positive `int`), `x = (double)rand()/RAND_MAX` is a finite double in the closed
interval `[0, 1]`; it is below 1 when `r < RAND_MAX` and equal to 1 when
`r = RAND_MAX`.  The same expression gives `y`. -/
theorem sample_in_closed_unit (M r : Nat) (hM : 0 < M) (hM31 : M < 2 ^ 31) (hr : r ≤ M) :
    ∃ v, scaled M r = CDouble.fin v ∧ 0 ≤ v ∧ v ≤ 1 ∧ (r < M → v < 1) ∧ (r = M → v = 1) := by
  have hM53 : M < 2 ^ 53 := lt_trans hM31 (by norm_num)
  obtain ⟨v, hv, hv0, hv1, _⟩ := scaled_spec M r hM hM53 hr
  refine ⟨v, hv, hv0, hv1, ?_, ?_⟩
  · intro hlt
    obtain ⟨v', hv', _, hlt'⟩ := scaled_lt_one M r hM53 hlt
    rw [hv] at hv'
    injection hv' with hv'
    rw [hv']; exact hlt'
  · intro heq
    subst heq
    rw [scaled_max r hM hM53] at hv
    injection hv with hv
    exact hv.symm

/-- Witness for `sample_in_closed_unit`: `RAND_MAX = 2147483647` and the raw
output `2147483646`, whose sample is `1 - 2 ^ (-31)`. -/
theorem sample_in_closed_unit_witness :
    (0 : Nat) < 2147483647 ∧ (2147483647 : Nat) < 2 ^ 31 ∧ (2147483646 : Nat) ≤ 2147483647 ∧
    (∃ v, scaled 2147483647 2147483646 = CDouble.fin v ∧ 0 ≤ v ∧ v ≤ 1 ∧
      ((2147483646 : Nat) < 2147483647 → v < 1) ∧ ((2147483646 : Nat) = 2147483647 → v = 1)) ∧
    scaled 2147483647 2147483646 = CDouble.fin (2147483647 / 2147483648) :=
  ⟨by norm_num, by norm_num, by norm_num,
    sample_in_closed_unit 2147483647 2147483646 (by norm_num) (by norm_num) (by norm_num),
    by decide!⟩

/-- C6: determinism.  Two runs with the same `N` whose generators have the
same `RAND_MAX` and hand out the same first `2 * N` outputs after seeding (in
particular two runs of one generator with one seed) both finish, with the same
`count` and the same estimate, whatever else differs between the runs (fuel,
the `%g` rendering). -/
theorem run_deterministic (G1 G2 : RandGen) (fmt1 fmt2 : CDouble → String)
    (seed1 seed2 N fuel1 fuel2 : Nat) (hN : N < 2 ^ 31) (hf1 : N ≤ fuel1) (hf2 : N ≤ fuel2)
    (hM : G1.RAND_MAX = G2.RAND_MAX)
    (hdraw : ∀ k, k < 2 * N →
      rawDraw G1 (G1.srand seed1) k = rawDraw G2 (G2.srand seed2) k) :
    ∃ r1 r2, mainWith G1 fmt1 (N : Int) seed1 fuel1 = some r1 ∧
      mainWith G2 fmt2 (N : Int) seed2 fuel2 = some r2 ∧
      r1.count = r2.count ∧ r1.pi = r2.pi := by
  have hc : (stateAfter G1 seed1 N).count = (stateAfter G2 seed2 N).count := by
    rw [(stateAfter_spec G1 seed1 N hN).2, (stateAfter_spec G2 seed2 N hN).2, hM,
      insideCount_congr G2.RAND_MAX _ _ N hdraw]
  refine ⟨_, _, mainWith_eq G1 fmt1 seed1 N fuel1 hN hf1,
    mainWith_eq G2 fmt2 seed2 N fuel2 hN hf2, hc, ?_⟩
  simp only [hc]

/-- Witness for `run_deterministic`: `lcg` and a generator replaying the
outputs of `lcg`, five passes. -/
theorem run_deterministic_witness :
    (5 : Nat) < 2 ^ 31 ∧ (5 : Nat) ≤ 5 ∧ (5 : Nat) ≤ 8 ∧
    lcg.RAND_MAX = (streamGen 32767 (rawDraw lcg (lcg.srand SEED))).RAND_MAX ∧
    (∀ k, k < 2 * 5 → rawDraw lcg (lcg.srand SEED) k =
      rawDraw (streamGen 32767 (rawDraw lcg (lcg.srand SEED)))
        ((streamGen 32767 (rawDraw lcg (lcg.srand SEED))).srand 0) k) ∧
    ∃ r1 r2, mainWith lcg (fun _ => "a") ((5 : Nat) : Int) SEED 5 = some r1 ∧
      mainWith (streamGen 32767 (rawDraw lcg (lcg.srand SEED))) (fun _ => "b")
        ((5 : Nat) : Int) 0 8 = some r2 ∧
      r1.count = r2.count ∧ r1.pi = r2.pi :=
  ⟨by norm_num, by norm_num, by norm_num, rfl,
    fun k _ => (rawDraw_streamGen 32767 _ 0 k).symm,
    run_deterministic lcg (streamGen 32767 (rawDraw lcg (lcg.srand SEED)))
      (fun _ => "a") (fun _ => "b") SEED 0 5 5 8 (by norm_num) (by norm_num) (by norm_num) rfl
      (fun k _ => (rawDraw_streamGen 32767 _ 0 k).symm)⟩

/-- C7: a run of `N` passes calls `rand()` exactly `2 * N` times.  With the
generator instrumented to record the outputs it hands out, the record after
the loop is the list of outputs number `0 .. 2 * N - 1` in order, the
generator has advanced `2 * N` times, and every pass appends exactly two
outputs to the record, whether or not the sample passes the test; the first
of the two is the one `x` is computed from and the second the one for `y`. -/
theorem two_draws_per_pass (G : RandGen) (seed N fuel : Nat)
    (hN : N < 2 ^ 31) (hf : N ≤ fuel) :
    (∃ s, loop (recording G) (N : Int) fuel (initLocals (recording G) seed) = some s ∧
      Prod.snd s.gen = (List.range (2 * N)).map (rawDraw G (G.srand seed)) ∧
      (Prod.snd s.gen).length = 2 * N ∧
      Prod.fst s.gen = (advance G)^[2 * N] (G.srand seed)) ∧
    (∀ s : Locals (recording G),
      Prod.snd (loopBody (recording G) s).gen =
        Prod.snd s.gen ++ [(G.rand (Prod.fst s.gen)).1,
          (G.rand (advance G (Prod.fst s.gen))).1]) ∧
    (∀ s : Locals G, (loopBody G s).count =
      if inCircle (scaled G.RAND_MAX (G.rand s.gen).1)
          (scaled G.RAND_MAX (G.rand (advance G s.gen)).1)
      then wrapInt (s.count + 1) else s.count) := by
  refine ⟨⟨_, loop_init (recording G) seed N fuel hN hf, ?_, ?_, ?_⟩, ?_, ?_⟩
  · rw [stateAfter_recording]
  · rw [stateAfter_recording]; simp
  · rw [stateAfter_recording]
  · intro s
    rw [loopBody_gen]
    show _ = _
    simp [advance, recording]
  · intro s; rfl

/-- Witness for `two_draws_per_pass`: three passes with `lcg` make six calls. -/
theorem two_draws_per_pass_witness :
    (3 : Nat) < 2 ^ 31 ∧ (3 : Nat) ≤ 3 ∧
    ∃ s, loop (recording lcg) ((3 : Nat) : Int) 3 (initLocals (recording lcg) SEED) = some s ∧
      Prod.snd s.gen = (List.range (2 * 3)).map (rawDraw lcg (lcg.srand SEED)) ∧
      (Prod.snd s.gen).length = 2 * 3 ∧
      Prod.fst s.gen = (advance lcg)^[2 * 3] (lcg.srand SEED) :=
  ⟨by norm_num, by norm_num,
    (two_draws_per_pass lcg SEED 3 3 (by norm_num) (by norm_num)).1⟩

/-- C8: with `niter = 10000000` and a positive `int` constant `RAND_MAX`, no
step of `main` fails.  Both divisors convert to finite non-zero doubles; for
raw outputs in `0 .. RAND_MAX` every double computed in a pass (`x`, `y`,
`x*x`, `y*y`, `z`) is finite; the loop stops, and `main` yields a finite
estimate (never a NaN or an infinity). -/
theorem main_never_fails (G : RandGen) (fmtG : CDouble → String) (argc : Int)
    (argv : List String) (hM : 0 < G.RAND_MAX) (hM31 : G.RAND_MAX < 2 ^ 31) :
    (CDouble.ofInt 10000000 = CDouble.fin 10000000 ∧ CDouble.fin 10000000 ≠ CDouble.fin 0) ∧
    (CDouble.ofInt G.RAND_MAX = CDouble.fin G.RAND_MAX ∧
      CDouble.fin (G.RAND_MAX : ℚ) ≠ CDouble.fin 0) ∧
    (∀ r1 r2, r1 ≤ G.RAND_MAX → r2 ≤ G.RAND_MAX →
      ∃ x y xx yy z, scaled G.RAND_MAX r1 = CDouble.fin x ∧
        scaled G.RAND_MAX r2 = CDouble.fin y ∧
        CDouble.mul (scaled G.RAND_MAX r1) (scaled G.RAND_MAX r1) = CDouble.fin xx ∧
        CDouble.mul (scaled G.RAND_MAX r2) (scaled G.RAND_MAX r2) = CDouble.fin yy ∧
        CDouble.add (CDouble.mul (scaled G.RAND_MAX r1) (scaled G.RAND_MAX r1))
          (CDouble.mul (scaled G.RAND_MAX r2) (scaled G.RAND_MAX r2)) = CDouble.fin z) ∧
    (∃ r v, main G fmtG argc argv = some r ∧ r.pi = CDouble.fin v) := by
  have hM53 : G.RAND_MAX < 2 ^ 53 := lt_trans hM31 (by norm_num)
  refine ⟨⟨?_, ?_⟩, ⟨ofInt_natCast _ hM53, ?_⟩,
    fun r1 r2 h1 h2 => sample_finite G.RAND_MAX r1 r2 hM hM31 h1 h2, ?_⟩
  · simpa using ofInt_natCast 10000000 (by norm_num)
  · intro h; injection h with h; norm_num at h
  · intro h
    injection h with h
    have : (G.RAND_MAX : ℚ) ≠ 0 := by exact_mod_cast hM.ne'
    exact this h
  · obtain ⟨r, v, hr, hv, _⟩ := estimate_bounds_aux G fmtG SEED 10000000 10000000
      (by norm_num) (by norm_num) le_rfl
    exact ⟨r, v, hr, hv⟩

/-- Witness for `main_never_fails`: the generator `lcg`, `RAND_MAX = 32767`. -/
theorem main_never_fails_witness :
    0 < lcg.RAND_MAX ∧ lcg.RAND_MAX < 2 ^ 31 ∧
    ∃ r v, main lcg (fun _ => "") 1 [] = some r ∧ r.pi = CDouble.fin v :=
  ⟨by decide, by decide,
    (main_never_fails lcg (fun _ => "") 1 [] (by decide) (by decide)).2.2.2⟩

/-- C9: `main` writes exactly the text made of the label `estimate of pi is `
(with its trailing space), the `%g` rendering of the estimate, one space and
one newline.  When the rendering has no newline in it, the text is a single
line: its only newline is its last character. -/
theorem main_output (G : RandGen) (fmtG : CDouble → String) (argc : Int)
    (argv : List String) :
    ∃ r, main G fmtG argc argv = some r ∧
      r.out = "estimate of pi is " ++ fmtG r.pi ++ " " ++ "\n" ∧
      (Char.ofNat 10 ∉ (fmtG r.pi).data →
        r.out.data.count (Char.ofNat 10) = 1 ∧ r.out.data.getLast? = some (Char.ofNat 10)) := by
  have h := mainWith_eq G fmtG SEED 10000000 10000000 (by norm_num) le_rfl
  refine ⟨_, h, ?_, ?_⟩
  · simp only [String.append_assoc]
    rfl
  · intro hnl
    exact line_shape _ hnl

/-- Witness for `main_output`: the generator `lcg` and a rendering that always
gives `3.14159`, which has no newline in it. -/
theorem main_output_witness :
    Char.ofNat 10 ∉ "3.14159".data ∧
    ∃ r, main lcg (fun _ => "3.14159") 1 [] = some r ∧
      r.out = "estimate of pi is 3.14159 \n" ∧
      r.out.data.count (Char.ofNat 10) = 1 ∧ r.out.data.getLast? = some (Char.ofNat 10) := by
  obtain ⟨r, hr, hout, hline⟩ := main_output lcg (fun _ => "3.14159") 1 []
  exact ⟨by decide, r, hr, hout, hline (by decide)⟩

/-- C11: the command-line arguments are ignored.  Two invocations of `main`
that differ only in `argc` and `argv` both finish, with one and the same
result: the same `count`, the same estimate and the same output text. -/
theorem main_ignores_arguments (G : RandGen) (fmtG : CDouble → String)
    (argc1 argc2 : Int) (argv1 argv2 : List String) :
    main G fmtG argc1 argv1 = main G fmtG argc2 argv2 ∧
    ∃ r1 r2, main G fmtG argc1 argv1 = some r1 ∧ main G fmtG argc2 argv2 = some r2 ∧
      r1.count = r2.count ∧ r1.pi = r2.pi ∧ r1.out = r2.out := by
  have h := mainWith_eq G fmtG SEED 10000000 10000000 (by norm_num) le_rfl
  exact ⟨rfl, _, _, h, h, rfl, rfl, rfl⟩

/-- C12: the edge case `niter = 0`.  The loop body is not run (the loop
returns its initial state, whatever the fuel), no output is drawn from the
generator, `count` is 0, and the final ratio divides 0 by 0: the quotient is
a NaN, so is `pi`, and it is not a number in `[0, 4]` (it is no finite value
and both comparisons `0 <= pi` and `pi <= 4` are false). -/
theorem zero_iterations (G : RandGen) (fmtG : CDouble → String) (seed fuel : Nat) :
    loop G 0 fuel (initLocals G seed) = some (initLocals G seed) ∧
    (∃ s, loop (recording G) 0 fuel (initLocals (recording G) seed) = some s ∧
      Prod.snd s.gen = []) ∧
    CDouble.div (CDouble.ofInt 0) (CDouble.ofInt 0) = CDouble.nan ∧
    (∃ r, mainWith G fmtG 0 seed fuel = some r ∧ r.count = 0 ∧ r.pi = CDouble.nan ∧
      (∀ v, r.pi ≠ CDouble.fin v) ∧
      CDouble.le (CDouble.ofInt 0) r.pi = false ∧ CDouble.le r.pi (CDouble.ofInt 4) = false) := by
  have hloop : ∀ (H : RandGen), loop H 0 fuel (initLocals H seed) = some (initLocals H seed) := by
    intro H
    cases fuel <;> simp [loop, initLocals]
  have hdiv : CDouble.div (CDouble.ofInt 0) (CDouble.ofInt 0) = CDouble.nan := by decide!
  have hpi : CDouble.mul (CDouble.div (CDouble.ofInt 0) (CDouble.ofInt 0)) (CDouble.ofInt 4)
      = CDouble.nan := by decide!
  refine ⟨hloop G, ⟨_, hloop (recording G), rfl⟩, hdiv, ?_⟩
  refine ⟨{ count := 0, pi := CDouble.nan,
            out := "estimate of pi is " ++ fmtG CDouble.nan ++ " \n" }, ?_, rfl, rfl, ?_, ?_, ?_⟩
  · unfold mainWith
    rw [hloop G]
    simp only [initLocals]
    rw [hpi]
  · intro v h; cases h
  · cases h : CDouble.ofInt 0 <;> rfl
  · rfl

/-- C13: the inclusion test is inclusive and its boundary is reached.  The
raw outputs `(RAND_MAX, 0)` and `(0, RAND_MAX)` give the samples `(1, 0)` and
`(0, 1)`, for which `z` is exactly 1 and the test passes.  When every one of
the `N` samples of a run is such a pair, the run ends with `count = N`, and
for `N ≥ 1` the estimate is exactly 4. -/
theorem boundary_counted (G : RandGen) (fmtG : CDouble → String) (seed N fuel : Nat)
    (hM : 0 < G.RAND_MAX) (hM31 : G.RAND_MAX < 2 ^ 31) (hN : N < 2 ^ 31) (hf : N ≤ fuel)
    (hb : ∀ i, i < N →
      (rawDraw G (G.srand seed) (2 * i) = G.RAND_MAX ∧
        rawDraw G (G.srand seed) (2 * i + 1) = 0) ∨
      (rawDraw G (G.srand seed) (2 * i) = 0 ∧
        rawDraw G (G.srand seed) (2 * i + 1) = G.RAND_MAX)) :
    (scaled G.RAND_MAX G.RAND_MAX = CDouble.fin 1 ∧ scaled G.RAND_MAX 0 = CDouble.fin 0) ∧
    (CDouble.add
        (CDouble.mul (scaled G.RAND_MAX G.RAND_MAX) (scaled G.RAND_MAX G.RAND_MAX))
        (CDouble.mul (scaled G.RAND_MAX 0) (scaled G.RAND_MAX 0)) = CDouble.fin 1 ∧
      CDouble.add
        (CDouble.mul (scaled G.RAND_MAX 0) (scaled G.RAND_MAX 0))
        (CDouble.mul (scaled G.RAND_MAX G.RAND_MAX) (scaled G.RAND_MAX G.RAND_MAX))
          = CDouble.fin 1) ∧
    (inCircle (scaled G.RAND_MAX G.RAND_MAX) (scaled G.RAND_MAX 0) = true ∧
      inCircle (scaled G.RAND_MAX 0) (scaled G.RAND_MAX G.RAND_MAX) = true) ∧
    (∃ r, mainWith G fmtG (N : Int) seed fuel = some r ∧ r.count = N ∧
      (1 ≤ N → r.pi = CDouble.fin 4)) := by
  have hM53 : G.RAND_MAX < 2 ^ 53 := lt_trans hM31 (by norm_num)
  have h1 := scaled_max G.RAND_MAX hM hM53
  have h0 := scaled_zero G.RAND_MAX hM hM53
  have hz1 : CDouble.add (CDouble.mul (CDouble.fin 1) (CDouble.fin 1))
      (CDouble.mul (CDouble.fin 0) (CDouble.fin 0)) = CDouble.fin 1 := by decide!
  have hz2 : CDouble.add (CDouble.mul (CDouble.fin 0) (CDouble.fin 0))
      (CDouble.mul (CDouble.fin 1) (CDouble.fin 1)) = CDouble.fin 1 := by decide!
  have hall : ∀ i, i < N → passes G.RAND_MAX (rawDraw G (G.srand seed)) i = true := by
    intro i hi
    unfold passes
    rcases hb i hi with ⟨ha, hb'⟩ | ⟨ha, hb'⟩
    · rw [ha, hb', h1, h0]; exact inCircle_boundary.1
    · rw [ha, hb', h1, h0]; exact inCircle_boundary.2
  have hcount : (stateAfter G seed N).count = (N : Int) := by
    rw [(stateAfter_spec G seed N hN).2, insideCount_all _ _ N hall]
  refine ⟨⟨h1, h0⟩, ?_, ?_, _, mainWith_eq G fmtG seed N fuel hN hf, hcount, ?_⟩
  · rw [h1, h0]; exact ⟨hz1, hz2⟩
  · rw [h1, h0]; exact inCircle_boundary
  · intro hN1
    simp only [hcount]
    exact ratio_full N hN1 (by omega)

/-- Witness for `boundary_counted`: three passes over the replayed stream
`32767, 0, 0, 32767, 32767, 0` with `RAND_MAX = 32767`; all three samples are
counted and the estimate is 4. -/
theorem boundary_counted_witness :
    0 < (streamGen 32767 (fun k => if k % 4 = 0 ∨ k % 4 = 3 then 32767 else 0)).RAND_MAX ∧
    (streamGen 32767 (fun k => if k % 4 = 0 ∨ k % 4 = 3 then 32767 else 0)).RAND_MAX < 2 ^ 31 ∧
    (3 : Nat) < 2 ^ 31 ∧ (3 : Nat) ≤ 3 ∧
    (∃ r, mainWith (streamGen 32767 (fun k => if k % 4 = 0 ∨ k % 4 = 3 then 32767 else 0))
        (fun _ => "4") ((3 : Nat) : Int) 0 3 = some r ∧ r.count = (3 : Nat) ∧
      ((1 : Nat) ≤ 3 → r.pi = CDouble.fin 4)) ∧
    (mainWith (streamGen 32767 (fun k => if k % 4 = 0 ∨ k % 4 = 3 then 32767 else 0))
        (fun _ => "4") ((3 : Nat) : Int) 0 3).map (fun r => (r.count, r.pi, r.out))
      = some (3, CDouble.fin 4, "estimate of pi is 4 \n") :=
  ⟨by decide, by decide, by norm_num, by norm_num,
    (boundary_counted (streamGen 32767 (fun k => if k % 4 = 0 ∨ k % 4 = 3 then 32767 else 0))
      (fun _ => "4") 0 3 3 (by decide) (by decide) (by norm_num) (by norm_num)
      (by
        intro i hi
        rw [rawDraw_streamGen, rawDraw_streamGen]
        show ((if 2 * i % 4 = 0 ∨ 2 * i % 4 = 3 then 32767 else 0) = 32767 ∧
            (if (2 * i + 1) % 4 = 0 ∨ (2 * i + 1) % 4 = 3 then 32767 else 0) = 0) ∨
          ((if 2 * i % 4 = 0 ∨ 2 * i % 4 = 3 then 32767 else 0) = 0 ∧
            (if (2 * i + 1) % 4 = 0 ∨ (2 * i + 1) % 4 = 3 then 32767 else 0) = 32767)
        interval_cases i <;> simp)).2.2.2,
    by decide!⟩

/-- C14: no 32-bit overflow in the loop of `main`.  With `niter = 10000000`,
every state in which the loop condition is tested has
`0 ≤ count ≤ i ≤ 10000000 < 2 ^ 31`, so the increments `i++` and `count++`,
computed modulo `2 ^ 32`, give `i + 1` and `count + 1`; a pass moves `i` to
`i + 1`; and the loop stops after exactly 10000000 passes: in the state after
`k < 10000000` passes the condition still holds, after 10000000 passes it
fails, any fuel of at least 10000000 passes gives that final state and less
fuel never reaches the exit. -/
theorem no_int_overflow (G : RandGen) (seed : Nat) (s : Locals G)
    (hs : Reachable G 10000000 seed s) :
    (0 ≤ s.count ∧ s.count ≤ s.i ∧ s.i ≤ 10000000 ∧ (10000000 : Int) < 2 ^ 31) ∧
    (wrapInt (s.i + 1) = s.i + 1 ∧ wrapInt (s.count + 1) = s.count + 1) ∧
    (loopBody G s).i = s.i + 1 ∧
    (∀ k, k < 10000000 → (stateAfter G seed k).i < 10000000) ∧
    (stateAfter G seed 10000000).i = 10000000 ∧
    (∀ fuel, 10000000 ≤ fuel →
      loop G 10000000 fuel (initLocals G seed) = some (stateAfter G seed 10000000)) ∧
    (∀ fuel, fuel < 10000000 → loop G 10000000 fuel (initLocals G seed) = none) := by
  have hN : (10000000 : Nat) < 2 ^ 31 := by norm_num
  obtain ⟨k, hk, rfl⟩ := reachable_stateAfter G seed 10000000 hN s hs
  obtain ⟨hi, hc⟩ := stateAfter_spec G seed k (by omega)
  have hle := insideCount_le G.RAND_MAX (rawDraw G (G.srand seed)) k
  have hwi : wrapInt ((stateAfter G seed k).i + 1) = (stateAfter G seed k).i + 1 := by
    rw [hi]; exact wrapInt_of_range _ (by omega) (by omega)
  refine ⟨⟨?_, ?_, ?_, by norm_num⟩, ⟨hwi, ?_⟩, ?_, ?_, ?_, ?_, ?_⟩
  · rw [hc]; exact Int.natCast_nonneg _
  · rw [hc, hi]; exact_mod_cast hle
  · rw [hi]; exact_mod_cast hk
  · rw [hc]; exact wrapInt_of_range _ (by omega) (by omega)
  · rw [loopBody_i, hwi]
  · intro j hj
    rw [(stateAfter_spec G seed j (by omega)).1]
    exact_mod_cast hj
  · exact (stateAfter_spec G seed 10000000 hN).1
  · intro fuel hf
    exact loop_init G seed 10000000 fuel hN hf
  · intro fuel hf
    exact loop_short_fuel G seed 10000000 hN fuel 0 (Nat.zero_le _) (by omega)

/-- Witness for `no_int_overflow`: the state after seven passes of `main`'s
loop with `lcg`, where `i = 7` and `count = 6`. -/
theorem no_int_overflow_witness :
    Reachable lcg 10000000 SEED (stateAfter lcg SEED 7) ∧
    (0 ≤ (stateAfter lcg SEED 7).count ∧
      (stateAfter lcg SEED 7).count ≤ (stateAfter lcg SEED 7).i ∧
      (stateAfter lcg SEED 7).i ≤ 10000000 ∧ (10000000 : Int) < 2 ^ 31) ∧
    (wrapInt ((stateAfter lcg SEED 7).i + 1) = (stateAfter lcg SEED 7).i + 1 ∧
      wrapInt ((stateAfter lcg SEED 7).count + 1) = (stateAfter lcg SEED 7).count + 1) ∧
    (stateAfter lcg SEED 7).i = 7 ∧ (stateAfter lcg SEED 7).count = 6 :=
  ⟨stateAfter_reachable lcg SEED 10000000 (by norm_num) 7 (by norm_num),
    (no_int_overflow lcg SEED (stateAfter lcg SEED 7)
      (stateAfter_reachable lcg SEED 10000000 (by norm_num) 7 (by norm_num))).1,
    (no_int_overflow lcg SEED (stateAfter lcg SEED 7)
      (stateAfter_reachable lcg SEED 10000000 (by norm_num) 7 (by norm_num))).2.1,
    by decide!, by decide!⟩

end FindPi
